import Mathlib

/-!
Verification of the BB84 protocol engine of `key-cipher-chat`.

This file is a shallow embedding of the protocol utilities in
`src/utils/bb84-protocol.ts` and of the protocol handlers in
`src/components/BB84Protocol.tsx`, together with theorems settling the
spec claims about them.

Embedding conventions:
- TS `Bit` and `Basis` are the literal types `0 | 1`; both are embedded
  as `ℕ` (the code compares and xors them as numbers).
- A JS array read `a[i]` that is out of range yields `undefined`; a
  strict comparison `x === a[i]` is then `false`, which we model by
  comparing with `a[i]?` (`Option`), and in a JS bitwise `^` the value
  `undefined` coerces to `0`, which we model with `List.getD _ _ 0`.
- JS `number` arithmetic on integers below `2^53` is exact, so counters
  and the rolling hash are embedded over `ℕ` / `ℤ` with explicit
  `% 2^32` where the code truncates via `<<`/`&` (ToInt32).
- The error-rate / threshold arithmetic is embedded over `ℚ`; the
  transcendental entropy formula of privacy amplification
  (`Math.log2`) is embedded over `ℝ`.
-/

namespace BB84

open scoped List

/-- Embedding of `performSifting` (bb84-protocol.ts, lines 9-18): iterate
`i` over `0 .. aliceBases.length - 1` and push `aliceBases[i] === bobBases[i]`.
When `bobBases` is shorter, `bobBases[i]` is `undefined` and the strict
equality is `false`; this is captured by comparing with `bobBases[i]?`. -/
def performSifting (aliceBases bobBases : List ℕ) : List Bool :=
  (List.range aliceBases.length).map
    (fun i => decide (bobBases[i]? = some (aliceBases.getD i 0)))

/-- Embedding of `extractSiftedKey` (bb84-protocol.ts, lines 23-25):
`bits.filter((_, i) => keepMask[i])`; a position past the end of
`keepMask` reads `undefined`, which is falsy, hence dropped. -/
def extractSiftedKey (bits : List ℕ) (keepMask : List Bool) : List ℕ :=
  ((List.range bits.length).filter (fun i => keepMask.getD i false)).map
    (fun i => bits.getD i 0)

/-- Mismatch counter of `calculateQBER` (bb84-protocol.ts, lines 64-69):
count the positions `i < aliceSample.length` with
`aliceSample[i] !== bobSample[i]` (an out-of-range `bobSample[i]` is
`undefined`, which counts as a mismatch). -/
def countMismatches (aliceSample bobSample : List ℕ) : ℕ :=
  ((List.range aliceSample.length).filter
    (fun i => !decide (bobSample[i]? = some (aliceSample.getD i 0)))).length

/-- Embedding of `calculateQBER` (bb84-protocol.ts, lines 58-72):
`errors / aliceSample.length`, and `0` for an empty sample. -/
def calculateQBER (aliceSample bobSample : List ℕ) : ℚ :=
  if aliceSample.length = 0 then 0
  else (countMismatches aliceSample bobSample : ℚ) / (aliceSample.length : ℚ)

/-- Embedding of `removeSampledBits` (bb84-protocol.ts, lines 77-82):
`key.filter((_, i) => !sampleIndices.includes(i))`. -/
def removeSampledBits (key : List ℕ) (sampleIndices : List ℕ) : List ℕ :=
  ((List.range key.length).filter (fun i => !(sampleIndices.contains i))).map
    (fun i => key.getD i 0)

/-! ### QBER sample selection (`selectRandomSample`)

The source shuffles `[0, ..., siftedLength-1]` with a Fisher-Yates pass
driven by successive outputs of an rng (`Math.random` or the seeded
LCG), then takes `slice(0, sampleSize)` and sorts ascending. The rng is
embedded as an abstract stream `rs : ℕ → ℚ` of the successive `rng()`
return values (each in `[0, 1)`). -/

/-- One swap `[indices[i], indices[j]] = [indices[j], indices[i]]`
(bb84-protocol.ts, line 41); the destructuring reads both old values
before writing. -/
def swapEntries (l : List ℕ) (i j : ℕ) : List ℕ :=
  (l.set i (l.getD j 0)).set j (l.getD i 0)

/-- The Fisher-Yates loop of `selectRandomSample` (bb84-protocol.ts,
lines 39-42): the first argument counts rng calls made so far, the
second is the current loop index `i` (counting down to 1), and
`j = Math.floor(rng() * (i + 1))`. -/
def fisherYatesGo (rs : ℕ → ℚ) : ℕ → ℕ → List ℕ → List ℕ
  | _, 0, l => l
  | t, i + 1, l =>
      fisherYatesGo rs (t + 1) i
        (swapEntries l (i + 1) (Int.toNat ⌊rs t * ((i : ℚ) + 2)⌋))

/-- Embedding of `selectRandomSample` (bb84-protocol.ts, lines 30-45):
shuffle `range siftedLength`, take the first `sampleSize` entries, sort
ascending. There is no failure path: the function is total. -/
def selectRandomSample (siftedLength sampleSize : ℕ) (rs : ℕ → ℚ) : List ℕ :=
  ((fisherYatesGo rs 0 (siftedLength - 1) (List.range siftedLength)).take
    sampleSize).mergeSort (fun a b => a ≤ b)

/-! ### Error correction (`performErrorCorrection`)

The source runs up to 3 passes; each pass partitions `aliceKey` into
blocks of `blockSize`, compares the XOR parity of each block on both
sides, increments `bitsRevealed` once per block, and on mismatch flips
the bit at the block midpoint of the working Bob key. The working key
state of a pass is the triple `(correctedBobKey, bitsRevealed,
correctionsMade)`. -/

structure ErrorCorrectionStats where
  initialErrors : ℕ
  parityRounds : ℕ
  bitsRevealed : ℕ
  correctedKey : List ℕ
  deriving Repr, DecidableEq

/-- Block size of `performErrorCorrection` (bb84-protocol.ts, line 104):
`Math.max(4, Math.ceil(1 / (2 * Math.max(estimatedQBER, 0.01))))`,
embedded over exact rationals (the code computes it in binary64). -/
def blockSize (estimatedQBER : ℚ) : ℕ :=
  max 4 (Int.toNat ⌈1 / (2 * max estimatedQBER (1 / 100))⌉)

/-- Number of blocks a pass visits: the loop
`for (start = 0; start < len; start += blockSize)` runs
`⌈len / blockSize⌉` times, i.e. `(len + bs - 1) / bs` in `ℕ`. -/
def numBlocks (len bs : ℕ) : ℕ := (len + bs - 1) / bs

/-- XOR parity of `key[start..fin)` (bb84-protocol.ts, lines 114-119);
an out-of-range read contributes `0` (JS `undefined` coerces to `0`
under `^`). -/
def blockParity (key : List ℕ) (start fin : ℕ) : ℕ :=
  (List.range' start (fin - start)).foldl (fun p i => p ^^^ key.getD i 0) 0

/-- One block of an error-correction pass (bb84-protocol.ts, lines
110-131), acting on the state `(correctedBobKey, bitsRevealed,
correctionsMade)`; block `k` covers
`[k * bs, min (k * bs + bs) aliceKey.length)`. -/
def ecBlock (aliceKey : List ℕ) (bs k : ℕ) (st : List ℕ × ℕ × Bool) :
    List ℕ × ℕ × Bool :=
  let corrected := st.1
  let start := k * bs
  let fin := min (start + bs) aliceKey.length
  let aliceParity := blockParity aliceKey start fin
  let bobParity := blockParity corrected start fin
  let bits := st.2.1 + 1
  if aliceParity ≠ bobParity then
    let mid := (start + fin) / 2
    let flipped :=
      if mid < corrected.length then
        corrected.set mid (if corrected.getD mid 0 = 0 then 1 else 0)
      else corrected
    (flipped, bits, true)
  else (corrected, bits, st.2.2)

/-- One full pass over all blocks, starting with `correctionsMade = false`
(bb84-protocol.ts, lines 106-131). -/
def ecPass (aliceKey : List ℕ) (bs : ℕ) (corrected : List ℕ) (bits : ℕ) :
    List ℕ × ℕ × Bool :=
  (List.range (numBlocks aliceKey.length bs)).foldl
    (fun st k => ecBlock aliceKey bs k st) (corrected, bits, false)

/-- The bounded round loop (`for round < 3 ... if (!correctionsMade)
break`): each executed round increments `parityRounds` and runs one
pass; the loop stops early when a pass makes no corrections. Returns
`(correctedBobKey, parityRounds, bitsRevealed)`. -/
def ecLoop (aliceKey : List ℕ) (bs : ℕ) :
    ℕ → List ℕ → ℕ → ℕ → List ℕ × ℕ × ℕ
  | 0, corrected, parityRounds, bits => (corrected, parityRounds, bits)
  | fuel + 1, corrected, parityRounds, bits =>
      let out := ecPass aliceKey bs corrected bits
      if out.2.2 then ecLoop aliceKey bs fuel out.1 (parityRounds + 1) out.2.1
      else (out.1, parityRounds + 1, out.2.1)

/-- Embedding of `performErrorCorrection` (bb84-protocol.ts, lines
88-142). The embedding is pure: `aliceKey` is only read, and the
returned `correctedKey` is built from a copy of `bobKey`. -/
def performErrorCorrection (aliceKey bobKey : List ℕ) (estimatedQBER : ℚ) :
    ErrorCorrectionStats :=
  let bs := blockSize estimatedQBER
  let out := ecLoop aliceKey bs 3 bobKey 0 0
  { initialErrors := countMismatches aliceKey bobKey
    parityRounds := out.2.1
    bitsRevealed := out.2.2
    correctedKey := out.1 }

/-! ### Key commitment (`generateCommitment` / `verifyCommitment`)

The source builds `keyString = key.join('')`, folds
`hash = ((hash << 5) - hash) + keyString.charCodeAt(i); hash = hash & hash`
over its characters, and returns `hash.toString(16)`.

In JS, `hash` is kept a signed 32-bit integer by `hash & hash`
(ToInt32). As residues modulo `2^32`, one step is
`hash' ≡ 32*hash - hash + c ≡ 31*hash + c (mod 2^32)` (the intermediate
double arithmetic is exact: all values stay far below `2^53`), so the
state is embedded as the residue in `[0, 2^32)` and the final signed
value is recovered by `toInt32`. `toString(16)` renders the signed
value in lowercase hex with a leading minus sign for negatives. -/

/-- Big-endian base-`b` digit values of `n` (the digit sequence produced
by JS `Number.prototype.toString(base)` for a non-negative integer). -/
def digitsBE (b n : ℕ) : List ℕ :=
  if b ≤ 1 ∨ n < b then [n] else digitsBE b (n / b) ++ [n % b]
termination_by n
decreasing_by
  rename_i h
  push_neg at h
  exact Nat.div_lt_self (by omega) (by omega)

/-- Left inverse of `digitsBE`: recombine big-endian base-`b` digits. -/
def decodeBE (b : ℕ) (l : List ℕ) : ℕ := l.foldl (fun a d => b * a + d) 0

/-- Lowercase hex characters of a non-negative integer, as printed by
JS `toString(16)`. -/
def hexChars (n : ℕ) : List Char := (digitsBE 16 n).map Nat.digitChar

/-- Interpretation of a residue in `[0, 2^32)` as a signed 32-bit value
(JS ToInt32). -/
def toInt32 (r : ℕ) : ℤ := if r < 2 ^ 31 then (r : ℤ) else (r : ℤ) - 2 ^ 32

/-- Rendering of a signed integer as by JS `toString(16)`: lowercase hex
digits, with a leading `'-'` for negative values. -/
def jsHexString (v : ℤ) : String :=
  if v < 0 then String.mk ('-' :: hexChars v.natAbs) else String.mk (hexChars v.toNat)

/-- Character codes of `key.join('')`: each entry is rendered in decimal
and the digit characters are concatenated (`'0'` has code 48). For the
bit values `0` and `1` of the TS `Bit` type this is one code `48 + bit`
per entry. -/
def keyCharCodes (key : List ℕ) : List ℕ :=
  (key.map (fun b => (digitsBE 10 b).map (fun d => 48 + d))).flatten

/-- One step of the rolling hash of `generateCommitment`
(bb84-protocol.ts, lines 197-200), on residues modulo `2^32`:
`((hash << 5) - hash) + c` followed by `hash & hash` (ToInt32) has
residue `31 * hash + c (mod 2^32)`. -/
def commitStep (h c : ℕ) : ℕ := (31 * h + c) % 4294967296

/-- Residue state of the rolling hash after consuming the whole key
string. -/
def commitHash (key : List ℕ) : ℕ := (keyCharCodes key).foldl commitStep 0

/-- Embedding of `generateCommitment` (bb84-protocol.ts, lines 193-202):
the signed 32-bit hash rendered by `toString(16)`. -/
def generateCommitment (key : List ℕ) : String :=
  jsHexString (toInt32 (commitHash key))

/-- Embedding of `verifyCommitment` (bb84-protocol.ts, lines 207-209). -/
def verifyCommitment (key : List ℕ) (commitment : String) : Bool :=
  generateCommitment key == commitment

/-! ### Privacy amplification (`performPrivacyAmplification`)

The output length follows the information-theoretic formula
`max(32, floor(inputLength * (1 - h(q)) - bitsRevealed - 64))` with the
binary entropy `h` computed from `Math.log2`; the entropy arithmetic is
embedded over `ℝ` (the code computes it in binary64, which is exact at
the inputs used in the theorems below). The amplified key XORs a
pseudo-random subset of input bits per output bit, driven by the seeded
LCG `seededRandom` whose state threads through all inner iterations. -/

/-- One step of `seededRandom` (bb84-protocol.ts, lines 47-53):
`state = (state * 1664525 + 1013904223) % 2^32` (exact in binary64 since
all intermediates stay below `2^53`); `rng()` returns `state / 2^32`. -/
def lcgNext (s : ℕ) : ℕ := (s * 1664525 + 1013904223) % 4294967296

/-- Binary entropy as computed by the code (bb84-protocol.ts, lines
157-158): `q > 0 ? -q*log2(q) - (1-q)*log2(1-q) : 0`. -/
noncomputable def entropyEstimate (q : ℝ) : ℝ :=
  if 0 < q then -q * Real.logb 2 q - (1 - q) * Real.logb 2 (1 - q) else 0

/-- Output length of privacy amplification (bb84-protocol.ts, lines
160-164): `max(32, floor(inputLength * (1 - h) - bitsRevealed - 64))`,
with the security parameter fixed at 64 bits as in the source. -/
noncomputable def paOutputLength (inputLength : ℕ) (q : ℝ) (bitsRevealed : ℕ) : ℤ :=
  max 32 ⌊(inputLength : ℝ) * (1 - entropyEstimate q) - bitsRevealed - 64⌋

/-- The hash seed (bb84-protocol.ts, line 168):
`key.reduce((acc, bit, i) => acc + bit * (i + 1), 0)`. -/
def paSeed (key : List ℕ) : ℕ :=
  key.enum.foldl (fun acc p => acc + p.2 * (p.1 + 1)) 0

/-- Inner loop step (bb84-protocol.ts, lines 173-178): advance the rng;
include the current key bit in the XOR iff `rng() < 0.5`, i.e. iff the
new LCG state is below `2^31`. State is `(bit accumulator, rng state)`. -/
def paBitStep (st : ℕ × ℕ) (k : ℕ) : ℕ × ℕ :=
  let s := lcgNext st.2
  (if s < 2147483648 then st.1 ^^^ k else st.1, s)

/-- The outer loop (bb84-protocol.ts, lines 171-180): emit `count`
output bits, threading the rng state between iterations. -/
def paOutputBits (key : List ℕ) : ℕ → ℕ → List ℕ
  | 0, _ => []
  | n + 1, s =>
      let out := key.foldl paBitStep (0, s)
      out.1 :: paOutputBits key n out.2

structure PrivacyAmplificationStats where
  inputLength : ℕ
  outputLength : ℤ
  compressionRatio : ℝ
  amplifiedKey : List ℕ

/-- Embedding of `performPrivacyAmplification` (bb84-protocol.ts, lines
148-188). -/
noncomputable def performPrivacyAmplification (key : List ℕ) (q : ℝ)
    (bitsRevealed : ℕ) : PrivacyAmplificationStats :=
  let inputLength := key.length
  let outputLength := paOutputLength inputLength q bitsRevealed
  { inputLength := inputLength
    outputLength := outputLength
    compressionRatio := (outputLength : ℝ) / (inputLength : ℝ)
    amplifiedKey := paOutputBits key outputLength.toNat (paSeed key) }

/-! ### Protocol state machine (`BB84Protocol.tsx`)

The per-role mutable state of the React component is embedded as a
record, and the relevant message-handler cases as state transformers.
Message sends, toasts and the loading flag are presentation-side
effects outside the state model; role dispatch (`if role === ...`) is
reflected by which handler applies. -/

inductive Step
  | idle
  | preparation
  | measurement
  | sifting
  | qber
  | errorCorrection
  | privacyAmplification
  | success
  | aborted
  | chat
  deriving DecidableEq, Repr

/-- The `ProtocolState` record of `src/types/bb84.ts` (Eve's optional
fields omitted; they are never read by the handlers modelled here). -/
structure ProtocolState where
  aliceBits : List ℕ
  aliceBases : List ℕ
  bobBases : List ℕ
  bobOutcomes : List ℕ
  keepMask : List Bool
  siftedKey : List ℕ
  sampleIndices : List ℕ
  qber : Option ℚ
  ecStats : Option ErrorCorrectionStats
  paStats : Option PrivacyAmplificationStats
  finalKey : List ℕ
  abortReason : Option String
  step : Step

/-- Embedding of `handleAbort` (BB84Protocol.tsx, lines 378-390). -/
def handleAbort (reason : String) (st : ProtocolState) : ProtocolState :=
  { st with step := Step.aborted, abortReason := some reason }

/-- Decimal digit characters of a natural number. -/
def decChars (n : ℕ) : List Char := (digitsBE 10 n).map Nat.digitChar

/-- Model of JS `x.toFixed(2)` for the non-negative values it is applied
to here: round to the nearest hundredth (half up) and print with
exactly two decimals. The source applies it to a binary64 value; the
rounding agrees at the exactly representable inputs used below. -/
def toFixed2 (x : ℚ) : String :=
  String.mk (decChars ((Int.floor (x * 100 + 1 / 2)).toNat / 100) ++ '.' ::
    (if (Int.floor (x * 100 + 1 / 2)).toNat % 100 < 10 then
      '0' :: decChars ((Int.floor (x * 100 + 1 / 2)).toNat % 100)
    else decChars ((Int.floor (x * 100 + 1 / 2)).toNat % 100)))

/-- The abort reason produced on a failed QBER check
(BB84Protocol.tsx, lines 177 and 208):
`QBER of ${(qber * 100).toFixed(2)}% exceeds threshold.` -/
def qberAbortReason (q : ℚ) : String :=
  "QBER of " ++ toFixed2 (q * 100) ++ "% exceeds threshold."

/-- Bob's sample on a `qber_request` (BB84Protocol.tsx, lines 155-161):
`sampleIndices.map(i => bobSiftedKey[i]).filter(bit => bit !== undefined)`. -/
def bobSampleOf (st : ProtocolState) (sampleIndices : List ℕ) : List ℕ :=
  sampleIndices.filterMap (fun i => (extractSiftedKey st.bobOutcomes st.keepMask)[i]?)

/-- Alice's sample on a `qber_response` (BB84Protocol.tsx, lines
188-194), addressed through her stored `sampleIndices`. -/
def aliceSampleOf (st : ProtocolState) : List ℕ :=
  st.sampleIndices.filterMap (fun i => (extractSiftedKey st.aliceBits st.keepMask)[i]?)

/-- Embedding of the `qber_request` handler case, Bob's role
(BB84Protocol.tsx, lines 153-184). The `qber_response` message Bob
sends before deciding is out of the state model. -/
def handleQberRequest (threshold : ℚ) (sampleIndices sampleBits : List ℕ)
    (st : ProtocolState) : ProtocolState :=
  if (bobSampleOf st sampleIndices).length ≠ sampleIndices.length then
    handleAbort "Insufficient sifted bits for QBER estimation." st
  else if threshold < calculateQBER sampleBits (bobSampleOf st sampleIndices) then
    handleAbort (qberAbortReason (calculateQBER sampleBits (bobSampleOf st sampleIndices))) st
  else
    { st with
      step := Step.errorCorrection
      qber := some (calculateQBER sampleBits (bobSampleOf st sampleIndices))
      siftedKey := removeSampledBits (extractSiftedKey st.bobOutcomes st.keepMask)
        sampleIndices }

/-- Embedding of the `qber_response` handler case, Alice's role
(BB84Protocol.tsx, lines 186-215). -/
def handleQberResponse (threshold : ℚ) (sampleBits : List ℕ)
    (st : ProtocolState) : ProtocolState :=
  if (aliceSampleOf st).length ≠ st.sampleIndices.length then
    handleAbort "Insufficient sifted bits for QBER evaluation." st
  else if threshold < calculateQBER (aliceSampleOf st) sampleBits then
    handleAbort (qberAbortReason (calculateQBER (aliceSampleOf st) sampleBits)) st
  else
    { st with
      step := Step.errorCorrection
      qber := some (calculateQBER (aliceSampleOf st) sampleBits)
      siftedKey := removeSampledBits (extractSiftedKey st.aliceBits st.keepMask)
        st.sampleIndices }

/-- A concrete mid-protocol state used by the QBER-stage theorems: four
sifted bits on each side, Bob's outcomes differing from Alice's bits in
the first position. -/
def sampleState : ProtocolState where
  aliceBits := [0, 1, 1, 1]
  aliceBases := []
  bobBases := []
  bobOutcomes := [1, 1, 1, 1]
  keepMask := [true, true, true, true]
  siftedKey := [1, 1, 1, 1]
  sampleIndices := [0, 1, 2, 3]
  qber := none
  ecStats := none
  paStats := none
  finalKey := []
  abortReason := none
  step := Step.qber

/-- Embedding of `handlePrivacyAmplification` (BB84Protocol.tsx, lines
361-372): compute the amplification stats, but store as `finalKey` the
plain prefix `siftedKey.slice(0, paStats.outputLength)` — not the
amplified key. The commitment message sent afterwards is out of the
state model. (Bob's `final_key_commitment` case, lines 235-266,
computes its `finalKey` by the same `slice`.) -/
noncomputable def handlePrivacyAmplification (st : ProtocolState) : ProtocolState :=
  if st.step ≠ Step.privacyAmplification then st
  else
    { st with
      paStats := some (performPrivacyAmplification st.siftedKey
        ((st.qber.getD 0 : ℚ) : ℝ) ((st.ecStats.map (fun s => s.bitsRevealed)).getD 0))
      finalKey := st.siftedKey.take
        (performPrivacyAmplification st.siftedKey ((st.qber.getD 0 : ℚ) : ℝ)
          ((st.ecStats.map (fun s => s.bitsRevealed)).getD 0)).outputLength.toNat
      step := Step.success }

/-- A concrete state that reaches privacy amplification with a
reconciled key of 10 zero bits, `qber = 0` and no revealed parity bits. -/
def paShortKeyState : ProtocolState where
  aliceBits := []
  aliceBases := []
  bobBases := []
  bobOutcomes := []
  keepMask := []
  siftedKey := List.replicate 10 0
  sampleIndices := []
  qber := some 0
  ecStats := none
  paStats := none
  finalKey := []
  abortReason := none
  step := Step.privacyAmplification

/-- C5: for equal-length basis sequences the keep-mask has the length of
the inputs and `keep[i] = (basesA[i] == basesB[i])` at every index. -/
theorem performSifting_keepMask_spec (a b : List ℕ) (hlen : a.length = b.length) :
    (performSifting a b).length = a.length ∧
      ∀ i, i < a.length →
        (performSifting a b).getD i false = decide (a.getD i 0 = b.getD i 0) := by
  constructor
  · simp [performSifting]
  · intro i hi
    have hib : i < b.length := hlen ▸ hi
    have hmap : (performSifting a b).length = a.length := by simp [performSifting]
    rw [List.getD_eq_getElem _ _ (by omega)]
    simp only [performSifting, List.getElem_map, List.getElem_range]
    rw [List.getElem?_eq_getElem hib]
    rw [List.getD_eq_getElem _ _ hi, List.getD_eq_getElem _ _ hib]
    simp [eq_comm]

/-- Witness for C5 at a concrete input. -/
theorem performSifting_keepMask_spec_witness :
    (performSifting [0, 1] [0, 0]).length = ([0, 1] : List ℕ).length ∧
      ∀ i, i < ([0, 1] : List ℕ).length →
        (performSifting [0, 1] [0, 0]).getD i false =
          decide (([0, 1] : List ℕ).getD i 0 = ([0, 0] : List ℕ).getD i 0) :=
  performSifting_keepMask_spec [0, 1] [0, 0] rfl

/-- C6 counterexample: on mismatched lengths `performSifting` does not
fail; it returns a keep-mask (here `[false]` on inputs of lengths 1
and 0). There is no `ShapeMismatch` error path in the code. -/
theorem performSifting_no_failure_cex : performSifting [0] [] = [false] := by decide

/-- C6 amended: on mismatched lengths `performSifting` still returns a
keep-mask of length `basesA.length`, whose entries at positions past the
end of `basesB` are `false`. -/
theorem performSifting_mismatched_lengths (a b : List ℕ) (_hlen : a.length ≠ b.length) :
    (performSifting a b).length = a.length ∧
      ∀ i, b.length ≤ i → i < a.length → (performSifting a b).getD i false = false := by
  refine ⟨by simp [performSifting], ?_⟩
  intro i hbi hi
  rw [List.getD_eq_getElem _ _ (by simp [performSifting]; omega)]
  simp only [performSifting, List.getElem_map, List.getElem_range]
  rw [List.getElem?_eq_none hbi]
  simp

/-- Witness for the amended C6 at a concrete input. -/
theorem performSifting_mismatched_lengths_witness :
    (performSifting [0] []).length = ([0] : List ℕ).length ∧
      ∀ i, ([] : List ℕ).length ≤ i → i < ([0] : List ℕ).length →
        (performSifting [0] []).getD i false = false :=
  performSifting_mismatched_lengths [0] [] (by decide)

theorem swapEntries_length (l : List ℕ) (i j : ℕ) :
    (swapEntries l i j).length = l.length := by
  simp [swapEntries]

theorem getElem_cons_set_perm :
    ∀ (t : List ℕ) (k : ℕ) (hk : k < t.length) (x : ℕ),
      t[k] :: t.set k x ~ x :: t := by
  intro t
  induction t with
  | nil => intro k hk; simp at hk
  | cons b s ih =>
      intro k hk x
      match k with
      | 0 => exact List.Perm.swap x b s
      | m + 1 =>
          have hm : m < s.length := by simpa using hk
          calc s[m] :: b :: s.set m x
              ~ b :: s[m] :: s.set m x := List.Perm.swap b s[m] _
            _ ~ b :: x :: s := (ih m hm x).cons b
            _ ~ x :: b :: s := List.Perm.swap x b s

theorem swapEntries_perm :
    ∀ (l : List ℕ) (i j : ℕ), i < l.length → j < l.length →
      swapEntries l i j ~ l := by
  intro l
  induction l with
  | nil => intro i j hi; simp at hi
  | cons a t ih =>
      intro i j hi hj
      match i, j with
      | 0, 0 => simp [swapEntries]
      | 0, m + 1 =>
          have hm : m < t.length := by simpa using hj
          have : swapEntries (a :: t) 0 (m + 1) = t[m] :: t.set m a := by
            simp [swapEntries, List.getD, List.getElem?_eq_getElem hm]
          rw [this]
          exact getElem_cons_set_perm t m hm a
      | m + 1, 0 =>
          have hm : m < t.length := by simpa using hi
          have : swapEntries (a :: t) (m + 1) 0 = t[m] :: t.set m a := by
            simp [swapEntries, List.getD, List.getElem?_eq_getElem hm]
          rw [this]
          exact getElem_cons_set_perm t m hm a
      | m + 1, k + 1 =>
          have hm : m < t.length := by simpa using hi
          have hk : k < t.length := by simpa using hj
          have : swapEntries (a :: t) (m + 1) (k + 1) = a :: swapEntries t m k := by
            simp [swapEntries]
          rw [this]
          exact (ih m k hm hk).cons a

theorem fisherYatesGo_perm (rs : ℕ → ℚ) (hrs : ∀ k, 0 ≤ rs k ∧ rs k < 1) :
    ∀ (i t : ℕ) (l : List ℕ), i < l.length → fisherYatesGo rs t i l ~ l := by
  intro i
  induction i with
  | zero => intro t l _; exact List.Perm.refl l
  | succ i ih =>
      intro t l hi
      have hj : Int.toNat ⌊rs t * ((i : ℚ) + 2)⌋ ≤ i + 1 := by
        have hlt : rs t * ((i : ℚ) + 2) < ((i : ℚ) + 2) := by
          have h2 : (0 : ℚ) < (i : ℚ) + 2 := by positivity
          calc rs t * ((i : ℚ) + 2) < 1 * ((i : ℚ) + 2) :=
                mul_lt_mul_of_pos_right (hrs t).2 h2
            _ = (i : ℚ) + 2 := one_mul _
        have : ⌊rs t * ((i : ℚ) + 2)⌋ < (i : ℤ) + 2 := by
          rw [Int.floor_lt]
          push_cast
          exact hlt
        omega
      have hjlt : Int.toNat ⌊rs t * ((i : ℚ) + 2)⌋ < l.length := by omega
      have hswap := swapEntries_perm l (i + 1) (Int.toNat ⌊rs t * ((i : ℚ) + 2)⌋) hi hjlt
      have hlen : i < (swapEntries l (i + 1) (Int.toNat ⌊rs t * ((i : ℚ) + 2)⌋)).length := by
        rw [swapEntries_length]; omega
      exact (ih (t + 1) _ hlen).trans hswap

/-- C3 counterexample: `selectRandomSample` with `siftedLength = 4` and
`sampleSize = 5` does not fail with `InsufficientLength`; it returns the
four available indices `[0, 1, 2, 3]` (shown here for the constant-zero
rng stream). -/
theorem selectRandomSample_no_failure_cex :
    selectRandomSample 4 5 (fun _ => 0) = [0, 1, 2, 3] := by
  have hrs : ∀ k : ℕ, 0 ≤ (fun _ : ℕ => (0 : ℚ)) k ∧ (fun _ : ℕ => (0 : ℚ)) k < 1 := by
    intro k
    constructor <;> norm_num
  have hperm : fisherYatesGo (fun _ => 0) 0 3 (List.range 4) ~ List.range 4 :=
    fisherYatesGo_perm (fun _ => 0) hrs 3 0 _ (by simp)
  have hlen : (fisherYatesGo (fun _ => 0) 0 3 (List.range 4)).length ≤ 5 := by
    rw [hperm.length_eq]; simp
  have : selectRandomSample 4 5 (fun _ => 0) = List.range 4 := by
    unfold selectRandomSample
    rw [show (4 : ℕ) - 1 = 3 from rfl, List.take_of_length_le hlen]
    exact List.eq_of_perm_of_sorted ((List.mergeSort_perm _ _).trans hperm)
      (List.sorted_mergeSort' _) (List.sorted_le_range 4)
  rw [this]
  rfl

/-- C3 amended: whenever `sampleSize ≥ siftedLength` (in particular when
it strictly exceeds it), `selectRandomSample` does not fail: it returns
every index `0 .. siftedLength - 1` in ascending order, for any rng
stream with values in `[0, 1)`. -/
theorem selectRandomSample_oversized_sample (n s : ℕ) (rs : ℕ → ℚ)
    (hrs : ∀ k, 0 ≤ rs k ∧ rs k < 1) (hns : n ≤ s) :
    selectRandomSample n s rs = List.range n := by
  unfold selectRandomSample
  match n, hns with
  | 0, _ => simp [fisherYatesGo]
  | n + 1, hns =>
      have hperm : fisherYatesGo rs 0 (n + 1 - 1) (List.range (n + 1)) ~
          List.range (n + 1) := by
        exact fisherYatesGo_perm rs hrs n 0 _ (by simp)
      have hlen : (fisherYatesGo rs 0 (n + 1 - 1) (List.range (n + 1))).length ≤ s := by
        rw [hperm.length_eq, List.length_range]
        exact hns
      rw [List.take_of_length_le hlen]
      exact List.eq_of_perm_of_sorted
        ((List.mergeSort_perm _ _).trans hperm)
        (List.sorted_mergeSort' _)
        (List.sorted_le_range (n + 1))

/-- Witness for the amended C3 at the concrete input of spec scenario 3. -/
theorem selectRandomSample_oversized_sample_witness :
    selectRandomSample 4 5 (fun _ => 0) = List.range 4 :=
  selectRandomSample_oversized_sample 4 5 (fun _ => 0)
    (fun _ => by norm_num) (by norm_num)

theorem ecBlock_fst_length (a : List ℕ) (bs k : ℕ) (st : List ℕ × ℕ × Bool) :
    (ecBlock a bs k st).1.length = st.1.length := by
  unfold ecBlock
  dsimp only
  split <;> [skip; rfl]
  split <;> simp

theorem ecBlock_bits (a : List ℕ) (bs k : ℕ) (st : List ℕ × ℕ × Bool) :
    (ecBlock a bs k st).2.1 = st.2.1 + 1 := by
  unfold ecBlock
  dsimp only
  split <;> rfl

theorem ecBlocks_foldl_spec (a : List ℕ) (bs : ℕ) :
    ∀ (ks : List ℕ) (st : List ℕ × ℕ × Bool),
      (ks.foldl (fun st k => ecBlock a bs k st) st).1.length = st.1.length ∧
        (ks.foldl (fun st k => ecBlock a bs k st) st).2.1 = st.2.1 + ks.length := by
  intro ks
  induction ks with
  | nil => intro st; simp
  | cons k ks ih =>
      intro st
      have h := ih (ecBlock a bs k st)
      constructor
      · rw [List.foldl_cons, h.1, ecBlock_fst_length]
      · rw [List.foldl_cons, h.2, ecBlock_bits]
        simp [Nat.add_assoc, Nat.add_comm 1 ks.length]

theorem ecPass_length (a : List ℕ) (bs : ℕ) (c : List ℕ) (b : ℕ) :
    (ecPass a bs c b).1.length = c.length :=
  (ecBlocks_foldl_spec a bs _ (c, b, false)).1

theorem ecPass_bits (a : List ℕ) (bs : ℕ) (c : List ℕ) (b : ℕ) :
    (ecPass a bs c b).2.1 = b + numBlocks a.length bs := by
  have h := (ecBlocks_foldl_spec a bs (List.range (numBlocks a.length bs))
    (c, b, false)).2
  simpa [ecPass] using h

theorem ecLoop_succ (a : List ℕ) (bs fuel : ℕ) (c : List ℕ) (pr br : ℕ) :
    ecLoop a bs (fuel + 1) c pr br =
      if (ecPass a bs c br).2.2 then
        ecLoop a bs fuel (ecPass a bs c br).1 (pr + 1) (ecPass a bs c br).2.1
      else ((ecPass a bs c br).1, pr + 1, (ecPass a bs c br).2.1) := rfl

theorem ecLoop_spec (a : List ℕ) (bs : ℕ) :
    ∀ (fuel : ℕ) (c : List ℕ) (pr br : ℕ), br = pr * numBlocks a.length bs →
      (ecLoop a bs fuel c pr br).1.length = c.length ∧
        (ecLoop a bs fuel c pr br).2.1 ≤ pr + fuel ∧
        (ecLoop a bs fuel c pr br).2.2 =
          (ecLoop a bs fuel c pr br).2.1 * numBlocks a.length bs := by
  intro fuel
  induction fuel with
  | zero =>
      intro c pr br hinv
      exact ⟨rfl, Nat.le_refl pr, hinv⟩
  | succ fuel ih =>
      intro c pr br hinv
      have hb : (ecPass a bs c br).2.1 = (pr + 1) * numBlocks a.length bs := by
        rw [ecPass_bits, hinv]
        ring
      rw [ecLoop_succ]
      by_cases hmade : (ecPass a bs c br).2.2 = true
      · rw [if_pos hmade]
        have h := ih (ecPass a bs c br).1 (pr + 1) (ecPass a bs c br).2.1 hb
        refine ⟨?_, ?_, h.2.2⟩
        · rw [h.1, ecPass_length]
        · exact le_trans h.2.1 (by omega)
      · rw [if_neg hmade]
        exact ⟨ecPass_length a bs c br, by dsimp only; omega, hb⟩

/-- C9: reconciliation is length-preserving: for every pair of input
keys and every error estimate, the returned `correctedKey` has exactly
the length of the input `bobKey`. (The embedding is pure, so the
`aliceKey` argument is never modified by construction; the source only
reads `aliceKey`.) -/
theorem performErrorCorrection_length (aliceKey bobKey : List ℕ) (q : ℚ) :
    (performErrorCorrection aliceKey bobKey q).correctedKey.length =
      bobKey.length := by
  have h := ecLoop_spec aliceKey (blockSize q) 3 bobKey 0 0 (by simp)
  simpa [performErrorCorrection] using h.1

theorem blockSize_pos (q : ℚ) : 0 < blockSize q :=
  lt_of_lt_of_le (by norm_num) (le_max_left 4 _)

theorem numBlocks_eq_ceil (len bs : ℕ) (hbs : 0 < bs) :
    (numBlocks len bs : ℤ) = ⌈(len : ℚ) / (bs : ℚ)⌉ := by
  have hdm := Nat.div_add_mod (len + bs - 1) bs
  have hmod : (len + bs - 1) % bs < bs := Nat.mod_lt _ hbs
  have h1 : len ≤ bs * numBlocks len bs := by unfold numBlocks; omega
  have h2 : bs * numBlocks len bs < len + bs := by unfold numBlocks; omega
  have hbsQ : (0 : ℚ) < (bs : ℚ) := by exact_mod_cast hbs
  rw [eq_comm, Int.ceil_eq_iff]
  constructor
  · rw [lt_div_iff₀ hbsQ]
    have h2Q : ((bs : ℚ)) * (numBlocks len bs : ℚ) < (len : ℚ) + bs := by
      exact_mod_cast h2
    push_cast
    linarith
  · rw [div_le_iff₀ hbsQ]
    have h1Q : (len : ℚ) ≤ (bs : ℚ) * (numBlocks len bs : ℚ) := by exact_mod_cast h1
    push_cast
    linarith

/-- C7: at most 3 parity passes execute, and `bitsRevealed` is exactly
one bit per block per executed pass:
`bitsRevealed = parityRounds * ⌈keyLength / blockSize⌉` with
`blockSize = max(4, ⌈1 / (2 * max(qber, 0.01))⌉)`. -/
theorem performErrorCorrection_bitsRevealed (aliceKey bobKey : List ℕ) (q : ℚ)
    (_hlen : aliceKey.length = bobKey.length) :
    (performErrorCorrection aliceKey bobKey q).parityRounds ≤ 3 ∧
      (performErrorCorrection aliceKey bobKey q).bitsRevealed =
        (performErrorCorrection aliceKey bobKey q).parityRounds *
          Int.toNat ⌈(aliceKey.length : ℚ) / (blockSize q : ℚ)⌉ := by
  have hceil := numBlocks_eq_ceil aliceKey.length (blockSize q) (blockSize_pos q)
  have htoNat : Int.toNat ⌈(aliceKey.length : ℚ) / (blockSize q : ℚ)⌉ =
      numBlocks aliceKey.length (blockSize q) := by
    rw [← hceil, Int.toNat_natCast]
  rw [htoNat]
  have h := ecLoop_spec aliceKey (blockSize q) 3 bobKey 0 0 (by simp)
  exact ⟨by simpa [performErrorCorrection] using h.2.1,
    by simpa [performErrorCorrection] using h.2.2⟩

/-- Witness for C7 at a concrete input: keys `[1,0,1,0]` and
`[1,1,1,0]` with `qber = 1/4`. -/
theorem performErrorCorrection_bitsRevealed_witness :
    (performErrorCorrection [1, 0, 1, 0] [1, 1, 1, 0] (1 / 4)).parityRounds ≤ 3 ∧
      (performErrorCorrection [1, 0, 1, 0] [1, 1, 1, 0] (1 / 4)).bitsRevealed =
        (performErrorCorrection [1, 0, 1, 0] [1, 1, 1, 0] (1 / 4)).parityRounds *
          Int.toNat ⌈(([1, 0, 1, 0] : List ℕ).length : ℚ) / (blockSize (1 / 4) : ℚ)⌉ :=
  performErrorCorrection_bitsRevealed [1, 0, 1, 0] [1, 1, 1, 0] (1 / 4) rfl

theorem decodeBE_digitsBE (b : ℕ) (hb : 2 ≤ b) :
    ∀ n : ℕ, decodeBE b (digitsBE b n) = n := by
  intro n
  induction n using Nat.strong_induction_on with
  | _ n ih =>
      rw [digitsBE]
      split
      · simp [decodeBE]
      · rename_i h
        push_neg at h
        have hdiv : n / b < n := Nat.div_lt_self (by omega) (by omega)
        unfold decodeBE
        rw [List.foldl_append]
        have := ih (n / b) hdiv
        unfold decodeBE at this
        rw [this]
        simp [Nat.div_add_mod]

theorem digitsBE_lt (b : ℕ) (hb : 2 ≤ b) :
    ∀ n : ℕ, ∀ d ∈ digitsBE b n, d < b := by
  intro n
  induction n using Nat.strong_induction_on with
  | _ n ih =>
      rw [digitsBE]
      split
      · rename_i h
        intro d hd
        simp only [List.mem_singleton] at hd
        omega
      · rename_i h
        push_neg at h
        intro d hd
        rcases List.mem_append.1 hd with hmem | hmem
        · exact ih (n / b) (Nat.div_lt_self (by omega) (by omega)) d hmem
        · simp only [List.mem_singleton] at hmem
          subst hmem
          exact Nat.mod_lt _ (by omega)

theorem digitsBE_ne_nil (b n : ℕ) : digitsBE b n ≠ [] := by
  rw [digitsBE]
  split <;> simp

theorem digitChar_injOn :
    ∀ d1 : ℕ, d1 < 16 → ∀ d2 : ℕ, d2 < 16 →
      Nat.digitChar d1 = Nat.digitChar d2 → d1 = d2 := by decide

theorem digitChar_ne_minus : ∀ d : ℕ, d < 16 → Nat.digitChar d ≠ '-' := by decide

theorem map_digitChar_inj :
    ∀ l1 l2 : List ℕ, (∀ d ∈ l1, d < 16) → (∀ d ∈ l2, d < 16) →
      l1.map Nat.digitChar = l2.map Nat.digitChar → l1 = l2 := by
  intro l1
  induction l1 with
  | nil =>
      intro l2 _ _ h
      cases l2 with
      | nil => rfl
      | cons d t => simp at h
  | cons d1 t1 ih =>
      intro l2 hb1 hb2 h
      cases l2 with
      | nil => simp at h
      | cons d2 t2 =>
          simp only [List.map_cons, List.cons.injEq] at h
          have hd : d1 = d2 :=
            digitChar_injOn d1 (hb1 d1 (by simp)) d2 (hb2 d2 (by simp)) h.1
          have ht : t1 = t2 :=
            ih t2 (fun d hd => hb1 d (by simp [hd])) (fun d hd => hb2 d (by simp [hd])) h.2
          rw [hd, ht]

theorem hexChars_inj (m n : ℕ) (h : hexChars m = hexChars n) : m = n := by
  have hdig : digitsBE 16 m = digitsBE 16 n :=
    map_digitChar_inj _ _ (digitsBE_lt 16 (by norm_num) m)
      (digitsBE_lt 16 (by norm_num) n) h
  have := decodeBE_digitsBE 16 (by norm_num) m
  rw [hdig, decodeBE_digitsBE 16 (by norm_num) n] at this
  exact this.symm

theorem minus_not_mem_hexChars (n : ℕ) : '-' ∉ hexChars n := by
  intro hmem
  rcases List.mem_map.1 hmem with ⟨d, hd, hchar⟩
  exact digitChar_ne_minus d (digitsBE_lt 16 (by norm_num) n d hd) hchar

theorem toInt32_inj {r1 r2 : ℕ} (h1 : r1 < 2 ^ 32) (h2 : r2 < 2 ^ 32)
    (h : toInt32 r1 = toInt32 r2) : r1 = r2 := by
  unfold toInt32 at h
  split_ifs at h <;> omega

theorem jsHexString_inj (v1 v2 : ℤ) (h : jsHexString v1 = jsHexString v2) :
    v1 = v2 := by
  unfold jsHexString at h
  split_ifs at h with hv1 hv2 hv2
  · have hlist : ('-' :: hexChars v1.natAbs) = ('-' :: hexChars v2.natAbs) := by
      injection h
    have : v1.natAbs = v2.natAbs := hexChars_inj _ _ (by injection hlist)
    omega
  · exfalso
    have hlist : ('-' :: hexChars v1.natAbs) = hexChars v2.toNat := by injection h
    exact minus_not_mem_hexChars v2.toNat (hlist ▸ List.mem_cons_self '-' _)
  · exfalso
    have hlist : ('-' :: hexChars v2.natAbs) = hexChars v1.toNat := by
      injection h.symm
    exact minus_not_mem_hexChars v1.toNat (hlist ▸ List.mem_cons_self '-' _)
  · have hlist : hexChars v1.toNat = hexChars v2.toNat := by injection h
    have : v1.toNat = v2.toNat := hexChars_inj _ _ hlist
    omega

/-- C8: the commit/verify round-trip always succeeds, since `verify`
recomputes the digest and compares. -/
theorem verifyCommitment_roundtrip (key : List ℕ) :
    verifyCommitment key (generateCommitment key) = true := by
  simp [verifyCommitment]

theorem foldl_commitStep_lt :
    ∀ (l : List ℕ) (r : ℕ), r < 4294967296 → l.foldl commitStep r < 4294967296 := by
  intro l
  induction l with
  | nil => intro r h; exact h
  | cons c l ih =>
      intro r h
      rw [List.foldl_cons]
      exact ih _ (Nat.mod_lt _ (by norm_num))

theorem commitHash_lt (key : List ℕ) : commitHash key < 4294967296 :=
  foldl_commitStep_lt _ 0 (by norm_num)

theorem commitStep_cast (r c : ℕ) :
    ((commitStep r c : ℕ) : ZMod 4294967296) =
      31 * (r : ZMod 4294967296) + (c : ZMod 4294967296) := by
  unfold commitStep
  rw [ZMod.natCast_mod]
  push_cast
  ring

/-- Powers of 31 are odd, hence nonzero modulo `2^32`. -/
theorem pow31_ne_zero (k : ℕ) : (31 : ZMod 4294967296) ^ k ≠ 0 := by
  intro h
  have hcast : ((31 ^ k : ℕ) : ZMod 4294967296) = 0 := by push_cast; exact h
  rw [ZMod.natCast_zmod_eq_zero_iff_dvd] at hcast
  have h2 : (2 : ℕ) ∣ 31 ^ k := dvd_trans (by norm_num) hcast
  have hodd : Odd (31 ^ k : ℕ) := Odd.pow (⟨15, by norm_num⟩ : Odd 31)
  rcases hodd with ⟨j, hj⟩
  omega

/-- The rolling hash is affine in its starting state: folding the same
suffix from two states multiplies their difference by `31 ^ length`. -/
theorem foldl_commitStep_sub :
    ∀ (l : List ℕ) (r1 r2 : ℕ),
      ((l.foldl commitStep r1 : ℕ) : ZMod 4294967296) -
        ((l.foldl commitStep r2 : ℕ) : ZMod 4294967296) =
        31 ^ l.length * ((r1 : ZMod 4294967296) - (r2 : ZMod 4294967296)) := by
  intro l
  induction l with
  | nil => intro r1 r2; simp
  | cons c l ih =>
      intro r1 r2
      rw [List.foldl_cons, List.foldl_cons, ih, commitStep_cast, commitStep_cast]
      simp only [List.length_cons, pow_succ]
      ring

theorem keyCharCodes_append_bit (p s : List ℕ) (b : ℕ) (hb : b < 10) :
    keyCharCodes (p ++ b :: s) = keyCharCodes p ++ (48 + b) :: keyCharCodes s := by
  unfold keyCharCodes
  rw [List.map_append, List.flatten_append, List.map_cons]
  have hdig : digitsBE 10 b = [b] := by rw [digitsBE, if_pos (Or.inr hb)]
  rw [hdig]
  simp

theorem commitHash_single_bit_flip (p s : List ℕ) (b1 b2 : ℕ) (hb1 : b1 < 2)
    (hb2 : b2 < 2) (hne : b1 ≠ b2) :
    commitHash (p ++ b1 :: s) ≠ commitHash (p ++ b2 :: s) := by
  intro heq
  have hc1 := keyCharCodes_append_bit p s b1 (by omega)
  have hc2 := keyCharCodes_append_bit p s b2 (by omega)
  set rp := (keyCharCodes p).foldl commitStep 0 with hrp
  have e1 : commitHash (p ++ b1 :: s) =
      (keyCharCodes s).foldl commitStep (commitStep rp (48 + b1)) := by
    unfold commitHash
    rw [hc1, List.foldl_append, List.foldl_cons]
  have e2 : commitHash (p ++ b2 :: s) =
      (keyCharCodes s).foldl commitStep (commitStep rp (48 + b2)) := by
    unfold commitHash
    rw [hc2, List.foldl_append, List.foldl_cons]
  have hdiff := foldl_commitStep_sub (keyCharCodes s)
    (commitStep rp (48 + b1)) (commitStep rp (48 + b2))
  rw [← e1, ← e2, heq, sub_self] at hdiff
  rw [commitStep_cast, commitStep_cast] at hdiff
  have hsub : (31 * (rp : ZMod 4294967296) + ((48 + b1 : ℕ) : ZMod 4294967296)) -
      (31 * (rp : ZMod 4294967296) + ((48 + b2 : ℕ) : ZMod 4294967296)) =
      (b1 : ZMod 4294967296) - (b2 : ZMod 4294967296) := by
    push_cast
    ring
  rw [hsub] at hdiff
  have hcases : ((b1 : ZMod 4294967296) - b2 = 1) ∨
      ((b1 : ZMod 4294967296) - b2 = -1) := by
    interval_cases b1 <;> interval_cases b2
    · exact absurd rfl hne
    · right; simp
    · left; simp
    · exact absurd rfl hne
  rcases hcases with h | h <;> rw [h] at hdiff
  · rw [mul_one] at hdiff
    exact pow31_ne_zero _ hdiff.symm
  · rw [mul_neg_one] at hdiff
    exact pow31_ne_zero _ (neg_eq_zero.mp hdiff.symm)

/-- C10: two equal-length bit keys differing in exactly one position
(`p ++ b1 :: s` versus `p ++ b2 :: s` with bits `b1 ≠ b2`) always
receive different digests — the flip changes the rolling hash by
`±31^k (mod 2^32)`, which is odd and hence nonzero — and therefore
verifying one key against the other's commitment returns `false`. This
holds always, not merely with overwhelming probability. -/
theorem generateCommitment_single_bit_flip (p s : List ℕ) (b1 b2 : ℕ)
    (hb1 : b1 < 2) (hb2 : b2 < 2) (hne : b1 ≠ b2) :
    generateCommitment (p ++ b1 :: s) ≠ generateCommitment (p ++ b2 :: s) ∧
      verifyCommitment (p ++ b1 :: s) (generateCommitment (p ++ b2 :: s)) = false := by
  have hhash := commitHash_single_bit_flip p s b1 b2 hb1 hb2 hne
  have hgen : generateCommitment (p ++ b1 :: s) ≠ generateCommitment (p ++ b2 :: s) := by
    intro h
    exact hhash (toInt32_inj (commitHash_lt _) (commitHash_lt _) (jsHexString_inj _ _ h))
  refine ⟨hgen, ?_⟩
  unfold verifyCommitment
  exact beq_eq_false_iff_ne.mpr hgen

/-- Witness for C10 at the concrete single-bit keys `[0]` and `[1]`. -/
theorem generateCommitment_single_bit_flip_witness :
    generateCommitment ([] ++ 0 :: []) ≠ generateCommitment ([] ++ 1 :: []) ∧
      verifyCommitment ([] ++ 0 :: []) (generateCommitment ([] ++ 1 :: [])) = false :=
  generateCommitment_single_bit_flip [] [] 0 1 (by norm_num) (by norm_num) (by norm_num)

theorem entropyEstimate_half : entropyEstimate (1 / 2) = 1 := by
  unfold entropyEstimate
  rw [if_pos (by norm_num)]
  norm_num
  rw [show (1 / 2 : ℝ) = 2⁻¹ by norm_num, Real.logb_inv, Real.logb_self_eq_one] <;>
    norm_num

theorem entropyEstimate_three_quarters :
    entropyEstimate (3 / 4) = 2 - (3 / 4) * Real.logb 2 3 := by
  unfold entropyEstimate
  rw [if_pos (by norm_num)]
  have h34 : Real.logb 2 (3 / 4) = Real.logb 2 3 - 2 := by
    rw [Real.logb_div (by norm_num) (by norm_num),
      show (4:ℝ) = 2 ^ (2:ℕ) by norm_num, Real.logb_pow, Real.logb_self_eq_one] <;>
      norm_num
  have h14 : Real.logb 2 (1 - 3 / 4) = -2 := by
    rw [show (1 - 3/4 : ℝ) = (4:ℝ)⁻¹ by norm_num, Real.logb_inv,
      show (4:ℝ) = 2 ^ (2:ℕ) by norm_num, Real.logb_pow, Real.logb_self_eq_one] <;>
      norm_num
  rw [h34, h14]
  ring

theorem logb_two_three_gt : (3:ℝ)/2 < Real.logb 2 3 := by
  rw [Real.lt_logb_iff_rpow_lt (by norm_num) (by norm_num)]
  have h1 : ((2:ℝ) ^ ((3:ℝ)/2)) ^ (2:ℕ) = (2:ℝ) ^ (3:ℝ) := by
    rw [← Real.rpow_natCast ((2:ℝ) ^ ((3:ℝ)/2)) 2, ← Real.rpow_mul (by norm_num : (0:ℝ) ≤ 2)]
    norm_num
  have h2 : (2:ℝ) ^ (3:ℝ) = 8 := by
    rw [show (3:ℝ) = ((3:ℕ):ℝ) by norm_num, Real.rpow_natCast]
    norm_num
  have h3 : (0:ℝ) ≤ (2:ℝ) ^ ((3:ℝ)/2) := Real.rpow_nonneg (by norm_num) _
  nlinarith [h1, h2, h3]

/-- C4 counterexample: with the default margin of 64 bits the claimed
bounds fail. At `inputLength = 10`, `estimatedQber = 1/2 ∈ (0,1)`,
`bitsRevealed = 0` the output length is 32 > inputLength; and the output
length is not monotonically non-increasing in `estimatedQber` on (0,1):
it grows from 32 to at least 61 between `q = 1/2` and `q = 3/4` at
`inputLength = 1000`, `bitsRevealed = 0` (the binary entropy decreases
again beyond 1/2). -/
theorem paOutputLength_claim_cex :
    paOutputLength 10 (1 / 2) 0 = 32 ∧ ¬ paOutputLength 10 (1 / 2) 0 ≤ 10 ∧
      paOutputLength 1000 (1 / 2) 0 < paOutputLength 1000 (3 / 4) 0 := by
  have hhalf : ∀ n : ℕ, paOutputLength n (1 / 2) 0 = 32 := by
    intro n
    unfold paOutputLength
    rw [entropyEstimate_half]
    norm_num
  have h34 : (61 : ℤ) ≤ paOutputLength 1000 (3 / 4) 0 := by
    unfold paOutputLength
    rw [entropyEstimate_three_quarters]
    refine le_trans ?_ (le_max_right _ _)
    rw [Int.le_floor]
    push_cast
    nlinarith [logb_two_three_gt]
  refine ⟨hhalf 10, by rw [hhalf 10]; norm_num, ?_⟩
  rw [hhalf 1000]
  omega

theorem entropyEstimate_eq_binEntropy (q : ℝ) (hq : 0 < q) :
    entropyEstimate q = Real.binEntropy q / Real.log 2 := by
  unfold entropyEstimate
  rw [if_pos hq]
  simp only [Real.binEntropy, Real.log_inv, Real.logb]
  ring

theorem entropyEstimate_nonneg (q : ℝ) (h0 : 0 < q) (h1 : q < 1) :
    0 ≤ entropyEstimate q := by
  unfold entropyEstimate
  rw [if_pos h0]
  have ha : Real.logb 2 q ≤ 0 := Real.logb_nonpos (by norm_num) (by linarith) (by linarith)
  have hb : Real.logb 2 (1 - q) ≤ 0 :=
    Real.logb_nonpos (by norm_num) (by linarith) (by linarith)
  nlinarith

theorem entropyEstimate_monotoneOn (q1 q2 : ℝ) (h0 : 0 < q1) (h12 : q1 ≤ q2)
    (h2 : q2 ≤ 1 / 2) : entropyEstimate q1 ≤ entropyEstimate q2 := by
  rw [entropyEstimate_eq_binEntropy q1 h0,
    entropyEstimate_eq_binEntropy q2 (lt_of_lt_of_le h0 h12)]
  have hmono : Real.binEntropy q1 ≤ Real.binEntropy q2 := by
    rcases eq_or_lt_of_le h12 with rfl | hlt
    · exact le_refl _
    · exact le_of_lt (Real.binEntropy_strictMonoOn
        ⟨le_of_lt h0, by rw [show (2:ℝ)⁻¹ = 1/2 by norm_num]; linarith⟩
        ⟨by linarith, by rw [show (2:ℝ)⁻¹ = 1/2 by norm_num]; linarith⟩ hlt)
  have hlog : (0:ℝ) < Real.log 2 := Real.log_pos (by norm_num)
  exact (div_le_div_iff_of_pos_right hlog).mpr hmono

/-- C4 amended: with the default security margin of 64 bits, the
Amplifier's output length is always at least 32; it is at most
`inputLength` whenever `inputLength ≥ 32` (for shorter inputs the floor
of 32 exceeds the input length); it is monotonically non-increasing in
`bitsRevealed`; and it is monotonically non-increasing in
`estimatedQber` on `(0, 1/2]` (beyond 1/2 the binary entropy decreases
again, so monotonicity in the error rate fails there). -/
theorem paOutputLength_bounds_mono :
    (∀ (n b : ℕ) (q : ℝ), 32 ≤ paOutputLength n q b) ∧
      (∀ (n b : ℕ) (q : ℝ), 0 < q → q < 1 → 32 ≤ n → paOutputLength n q b ≤ n) ∧
      (∀ (n : ℕ) (q : ℝ) (b1 b2 : ℕ), b1 ≤ b2 →
        paOutputLength n q b2 ≤ paOutputLength n q b1) ∧
      (∀ (n b : ℕ) (q1 q2 : ℝ), 0 < q1 → q1 ≤ q2 → q2 ≤ 1 / 2 →
        paOutputLength n q2 b ≤ paOutputLength n q1 b) := by
  refine ⟨?_, ?_, ?_, ?_⟩
  · intro n b q
    exact le_max_left _ _
  · intro n b q h0 h1 hn
    unfold paOutputLength
    have hh := entropyEstimate_nonneg q h0 h1
    have hle : (n : ℝ) * (1 - entropyEstimate q) - b - 64 ≤ (n : ℝ) := by
      have hmul : (n : ℝ) * (1 - entropyEstimate q) ≤ (n : ℝ) * 1 :=
        mul_le_mul_of_nonneg_left (by linarith) (Nat.cast_nonneg n)
      have hb : (0:ℝ) ≤ b := Nat.cast_nonneg b
      linarith
    have hfloor : ⌊(n : ℝ) * (1 - entropyEstimate q) - (b : ℝ) - 64⌋ ≤ (n : ℤ) := by
      calc ⌊(n : ℝ) * (1 - entropyEstimate q) - (b : ℝ) - 64⌋ ≤ ⌊(n : ℝ)⌋ :=
            Int.floor_le_floor hle
        _ = (n : ℤ) := Int.floor_natCast n
    exact max_le (by exact_mod_cast hn) hfloor
  · intro n q b1 b2 hb
    unfold paOutputLength
    apply max_le_max (le_refl 32)
    apply Int.floor_le_floor
    have hcast : (b1 : ℝ) ≤ (b2 : ℝ) := by exact_mod_cast hb
    linarith
  · intro n b q1 q2 h0 h12 h2
    unfold paOutputLength
    apply max_le_max (le_refl 32)
    apply Int.floor_le_floor
    have hmono := entropyEstimate_monotoneOn q1 q2 h0 h12 h2
    have hmul : (n : ℝ) * (1 - entropyEstimate q2) ≤ (n : ℝ) * (1 - entropyEstimate q1) :=
      mul_le_mul_of_nonneg_left (by linarith) (Nat.cast_nonneg n)
    linarith

/-- Witness for the amended C4 at concrete inputs, exercising every
hypothesis-bearing conjunct. -/
theorem paOutputLength_bounds_mono_witness :
    paOutputLength 100 (1 / 4) 20 ≤ 100 ∧
      paOutputLength 100 (1 / 4) 20 ≤ paOutputLength 100 (1 / 4) 10 ∧
      paOutputLength 100 (1 / 4) 10 ≤ paOutputLength 100 (1 / 8) 10 :=
  ⟨paOutputLength_bounds_mono.2.1 100 20 (1 / 4) (by norm_num) (by norm_num) (by norm_num),
    paOutputLength_bounds_mono.2.2.1 100 (1 / 4) 10 20 (by norm_num),
    paOutputLength_bounds_mono.2.2.2 100 10 (1 / 8) (1 / 4) (by norm_num) (by norm_num)
      (by norm_num)⟩

theorem qberAbortReason_ne (q : ℚ) : qberAbortReason q ≠ "QBER too high" := by
  unfold qberAbortReason
  intro h
  have hdata : ("QBER of " ++ toFixed2 (q * 100) ++ "% exceeds threshold.").data =
      ("QBER too high").data := by rw [h]
  rw [String.data_append, String.data_append] at hdata
  simp at hdata

/-- C2 counterexample: on a QBER of 25% against threshold 11% the run
does abort, but the abort reason is not the string `"QBER too high"`
(it is `QBER of ... % exceeds threshold.`). -/
theorem handleQberRequest_reason_cex :
    (handleQberRequest (11 / 100) [0, 1, 2, 3] [0, 1, 1, 1] sampleState).step =
        Step.aborted ∧
      (handleQberRequest (11 / 100) [0, 1, 2, 3] [0, 1, 1, 1] sampleState).abortReason ≠
        some "QBER too high" := by
  have hbs : bobSampleOf sampleState [0, 1, 2, 3] = [1, 1, 1, 1] := by decide
  have hcm : countMismatches [0, 1, 1, 1] [1, 1, 1, 1] = 1 := by decide
  have hq : (11 / 100 : ℚ) < calculateQBER [0, 1, 1, 1] (bobSampleOf sampleState [0, 1, 2, 3]) := by
    rw [hbs]
    unfold calculateQBER
    rw [if_neg (by decide), hcm]
    norm_num
  have hlen : (bobSampleOf sampleState [0, 1, 2, 3]).length = ([0, 1, 2, 3] : List ℕ).length := by
    decide
  unfold handleQberRequest
  rw [if_neg (fun hne => hne hlen), if_pos hq]
  refine ⟨rfl, ?_⟩
  simp only [handleAbort, ne_eq, Option.some.injEq]
  exact qberAbortReason_ne _

/-- C2 amended: for either role, once the sample is addressable the
check is a clean dichotomy on the computed qber: `qber > threshold`
drives the state to `Aborted` (never `Success`) with the reason string
`QBER of <pct>% exceeds threshold.` (not literally `"QBER too high"`),
and `qber <= threshold` advances the state to `ErrorCorrection`. -/
theorem qberCheck_dichotomy (threshold : ℚ) (st : ProtocolState)
    (sampleIndices sampleBits : List ℕ) :
    ((bobSampleOf st sampleIndices).length = sampleIndices.length →
      (threshold < calculateQBER sampleBits (bobSampleOf st sampleIndices) →
        (handleQberRequest threshold sampleIndices sampleBits st).step = Step.aborted ∧
          (handleQberRequest threshold sampleIndices sampleBits st).abortReason =
            some (qberAbortReason (calculateQBER sampleBits (bobSampleOf st sampleIndices))) ∧
          (handleQberRequest threshold sampleIndices sampleBits st).step ≠ Step.success) ∧
      (calculateQBER sampleBits (bobSampleOf st sampleIndices) ≤ threshold →
        (handleQberRequest threshold sampleIndices sampleBits st).step =
          Step.errorCorrection)) ∧
    ((aliceSampleOf st).length = st.sampleIndices.length →
      (threshold < calculateQBER (aliceSampleOf st) sampleBits →
        (handleQberResponse threshold sampleBits st).step = Step.aborted ∧
          (handleQberResponse threshold sampleBits st).abortReason =
            some (qberAbortReason (calculateQBER (aliceSampleOf st) sampleBits)) ∧
          (handleQberResponse threshold sampleBits st).step ≠ Step.success) ∧
      (calculateQBER (aliceSampleOf st) sampleBits ≤ threshold →
        (handleQberResponse threshold sampleBits st).step = Step.errorCorrection)) := by
  constructor
  · intro hlen
    constructor
    · intro hgt
      unfold handleQberRequest
      rw [if_neg (fun hne => hne hlen), if_pos hgt]
      exact ⟨rfl, rfl, by simp [handleAbort]⟩
    · intro hle
      unfold handleQberRequest
      rw [if_neg (fun hne => hne hlen), if_neg (not_lt.mpr hle)]
  · intro hlen
    constructor
    · intro hgt
      unfold handleQberResponse
      rw [if_neg (fun hne => hne hlen), if_pos hgt]
      exact ⟨rfl, rfl, by simp [handleAbort]⟩
    · intro hle
      unfold handleQberResponse
      rw [if_neg (fun hne => hne hlen), if_neg (not_lt.mpr hle)]

/-- Witness for the amended C2: at the concrete `sampleState`, Bob's
handler aborts on sample bits differing in one of four positions
(qber 25% > 11%), and Alice's handler proceeds to error correction on
matching sample bits (qber 0%). -/
theorem qberCheck_dichotomy_witness :
    (handleQberRequest (11 / 100) [0, 1, 2, 3] [0, 1, 1, 1] sampleState).step =
        Step.aborted ∧
      (handleQberResponse (11 / 100) [0, 1, 1, 1] sampleState).step =
        Step.errorCorrection := by
  have hbs : bobSampleOf sampleState [0, 1, 2, 3] = [1, 1, 1, 1] := by decide
  have has : aliceSampleOf sampleState = [0, 1, 1, 1] := by decide
  have hq1 : (11 / 100 : ℚ) < calculateQBER [0, 1, 1, 1] (bobSampleOf sampleState [0, 1, 2, 3]) := by
    rw [hbs]
    unfold calculateQBER
    rw [if_neg (by decide), show countMismatches [0, 1, 1, 1] [1, 1, 1, 1] = 1 from by decide]
    norm_num
  have hq2 : calculateQBER (aliceSampleOf sampleState) [0, 1, 1, 1] ≤ (11 / 100 : ℚ) := by
    rw [has]
    unfold calculateQBER
    rw [if_neg (by decide), show countMismatches [0, 1, 1, 1] [0, 1, 1, 1] = 0 from by decide]
    norm_num
  exact ⟨(((qberCheck_dichotomy (11 / 100) sampleState [0, 1, 2, 3] [0, 1, 1, 1]).1
      (by decide)).1 hq1).1,
    ((qberCheck_dichotomy (11 / 100) sampleState [0, 1, 2, 3] [0, 1, 1, 1]).2
      (by decide)).2 hq2⟩

theorem foldl_paBitStep_zero :
    ∀ (key : List ℕ), (∀ b ∈ key, b = 0) → ∀ (a s : ℕ),
      (key.foldl paBitStep (a, s)).1 = a := by
  intro key
  induction key with
  | nil => intro _ a s; rfl
  | cons k t ih =>
      intro hz a s
      have hk : k = 0 := hz k (by simp)
      rw [List.foldl_cons]
      have hstep : paBitStep (a, s) k = (a, lcgNext s) := by
        unfold paBitStep
        rw [hk, Nat.xor_zero]
        simp
      rw [hstep]
      exact ih (fun b hb => hz b (by simp [hb])) a (lcgNext s)

theorem paOutputBits_zero_key (key : List ℕ) (hz : ∀ b ∈ key, b = 0) :
    ∀ (n s : ℕ), paOutputBits key n s = List.replicate n 0 := by
  intro n
  induction n with
  | zero => intro s; rfl
  | succ n ih =>
      intro s
      show (key.foldl paBitStep (0, s)).1 ::
          paOutputBits key n (key.foldl paBitStep (0, s)).2 =
        List.replicate (n + 1) 0
      rw [foldl_paBitStep_zero key hz 0 s, List.replicate_succ, ih]

theorem paOutputLength_ten_zero : paOutputLength 10 ((0 : ℚ) : ℝ) 0 = 32 := by
  unfold paOutputLength entropyEstimate
  rw [if_neg (by norm_num)]
  rw [show ((10 : ℕ) : ℝ) * (1 - 0) - ((0 : ℕ) : ℝ) - 64 = ((-54 : ℤ) : ℝ) by push_cast; ring,
    Int.floor_intCast]
  decide

/-- C1: evaluation of the code at the failing input. At
`paShortKeyState` the state's `finalKey` is the 10-bit sifted key
itself (a plain prefix, length 10), while the Amplifier's `outputKey`
is the 32-bit hashed key of length `outputLength = 32`; the two
disagree, so the final key stored in state and handed to the chat
layer is NOT the Amplifier's output. -/
theorem handlePrivacyAmplification_finalKey_bug :
    (handlePrivacyAmplification paShortKeyState).finalKey = List.replicate 10 0 ∧
      (performPrivacyAmplification paShortKeyState.siftedKey
          ((paShortKeyState.qber.getD 0 : ℚ) : ℝ) 0).amplifiedKey =
        List.replicate 32 0 ∧
      (performPrivacyAmplification paShortKeyState.siftedKey
          ((paShortKeyState.qber.getD 0 : ℚ) : ℝ) 0).outputLength = 32 ∧
      (handlePrivacyAmplification paShortKeyState).finalKey ≠
        (performPrivacyAmplification paShortKeyState.siftedKey
          ((paShortKeyState.qber.getD 0 : ℚ) : ℝ) 0).amplifiedKey := by
  have hq : ((paShortKeyState.qber.getD 0 : ℚ) : ℝ) = ((0 : ℚ) : ℝ) := rfl
  have hsift : paShortKeyState.siftedKey = List.replicate 10 0 := rfl
  have hlen : (List.replicate 10 (0 : ℕ)).length = 10 := by simp
  have hout : (performPrivacyAmplification paShortKeyState.siftedKey
      ((paShortKeyState.qber.getD 0 : ℚ) : ℝ) 0).outputLength = 32 := by
    show paOutputLength (List.replicate 10 (0 : ℕ)).length ((0 : ℚ) : ℝ) 0 = 32
    rw [hlen]
    exact paOutputLength_ten_zero
  have hamp : (performPrivacyAmplification paShortKeyState.siftedKey
      ((paShortKeyState.qber.getD 0 : ℚ) : ℝ) 0).amplifiedKey = List.replicate 32 0 := by
    show paOutputBits (List.replicate 10 0)
      (paOutputLength (List.replicate 10 (0 : ℕ)).length ((0 : ℚ) : ℝ) 0).toNat
      (paSeed (List.replicate 10 0)) = List.replicate 32 0
    rw [hlen, paOutputLength_ten_zero]
    exact paOutputBits_zero_key _ (by simp) 32 _
  have hfin : (handlePrivacyAmplification paShortKeyState).finalKey =
      List.replicate 10 0 := by
    unfold handlePrivacyAmplification
    rw [if_neg (by simp [paShortKeyState])]
    show (List.replicate 10 (0:ℕ)).take
      (performPrivacyAmplification paShortKeyState.siftedKey
        ((paShortKeyState.qber.getD 0 : ℚ) : ℝ)
        ((paShortKeyState.ecStats.map (fun s => s.bitsRevealed)).getD 0)).outputLength.toNat =
      List.replicate 10 0
    have hec : (paShortKeyState.ecStats.map (fun s => s.bitsRevealed)).getD 0 = 0 := rfl
    rw [hec, hout]
    exact List.take_of_length_le (by simp)
  refine ⟨hfin, hamp, hout, ?_⟩
  rw [hfin, hamp]
  intro h
  have := congrArg List.length h
  simp at this

end BB84
